import Mathlib

/-!
# Package `token` (buth/go-token): a shallow embedding and its contracts

`token.go` defines `type Token []byte` together with a random generator and
three pairs of encode/decode methods (binary, text, SQL scalar).  The text
methods delegate to `encoding/base64` of the Go standard library
(`base64.URLEncoding.WithPadding(base64.NoPadding)`), so the embedding below
also transcribes the parts of that package the methods call: `NewEncoding`,
`WithPadding`, `EncodedLen`, `Encode`, `DecodedLen`, `decodeQuantum` and
`Decode`.

Conventions of the embedding

* a byte is a `Fin 256`; a slice is a `List Byte`; `make([]byte, n)` is
  `List.replicate n 0`;
* Go's `int`/`uint` values are `Nat` (no value computed here exceeds `2^24`
  apart from lengths, which are bounded by addressable memory); a `rune` and a
  `CorruptInputError` offset are `Int`;
* an indexed store `s[i] = v` is bounds checked as in Go: a function that can
  panic returns `Option`, with `none` for the panic;
* a method with a pointer receiver takes the old token and returns the new one;
* loops over `src[si:]` are recursions over the remaining input, with `si`
  carried along for the error offsets.
-/

namespace GoToken

/-- A Go `byte`. -/
abbrev Byte := Fin 256

/-- Conversion `byte(x)` of an unsigned integer: truncation to 8 bits. -/
def toByte (x : Nat) : Byte := ⟨x % 256, Nat.mod_lt x (by decide)⟩

/-- The type `Token []byte` of token.go, line 19. -/
abbrev Token := List Byte

/-- The error values that can reach a caller of the package. -/
inductive Error where
  /-- The package variable errInvalidTokenData (token.go, line 14). -/
  | errInvalidTokenData
  /-- A base64.CorruptInputError with its input offset. -/
  | corruptInput (offset : Int)
  /-- Any error returned by the system random source. -/
  | randSource (code : Nat)
  deriving DecidableEq, Repr

/-- An indexed store `s[i] = v`; `none` is Go's index-out-of-range panic. -/
def store (s : List Byte) (i : Nat) (v : Byte) : Option (List Byte) :=
  if i < s.length then some (s.set i v) else none

/-! ## `encoding/base64` -/

/-- The constant `base64.StdPadding`, the rune `=`. -/
def StdPadding : Int := 61

/-- The constant `base64.NoPadding`. -/
def NoPadding : Int := -1

/-- The marker `0xff` of a byte outside the alphabet in a decode map. -/
def invalidIndex : Byte := 0xff

/-- The struct `base64.Encoding`. -/
structure Encoding where
  /-- The alphabet, a 64-byte array. -/
  encode : List Byte
  /-- The inverse table, a 256-byte array. -/
  decodeMap : List Byte
  /-- The padding rune, or NoPadding. -/
  padChar : Int
  /-- Whether trailing padding bits must be zero. -/
  strict : Bool

/-- The alphabet `encodeURL` of base64.URLEncoding, as bytes. -/
def encodeURL : List Byte :=
  "ABCDEFGHIJKLMNOPQRSTUVWXYZabcdefghijklmnopqrstuvwxyz0123456789-_".toList.map
    (fun c => toByte c.toNat)

/-- Go `base64.NewEncoding`: the decode map starts as 256 times `0xff` and the
loop stores `i` at position `encoder[i]`.  (The panics of NewEncoding on a
malformed alphabet are not modelled: the only alphabet used is `encodeURL`.) -/
def NewEncoding (encoder : List Byte) : Encoding where
  encode := encoder
  decodeMap := encoder.enum.foldl (fun m ic => m.set ic.2.val (toByte ic.1))
    (List.replicate 256 invalidIndex)
  padChar := StdPadding
  strict := false

/-- Go `Encoding.WithPadding`: the same encoding with another padding rune. -/
def Encoding.WithPadding (enc : Encoding) (padding : Int) : Encoding :=
  { enc with padChar := padding }

/-- The package variable `base64.URLEncoding`. -/
def URLEncoding : Encoding := NewEncoding encodeURL

/-- The package variable `tokenEncoding` (token.go, line 15). -/
def tokenEncoding : Encoding := URLEncoding.WithPadding NoPadding

/-- Go `Encoding.EncodedLen`. -/
def Encoding.EncodedLen (enc : Encoding) (n : Nat) : Nat :=
  if enc.padChar = NoPadding then n / 3 * 4 + (n % 3 * 8 + 5) / 6
  else (n + 2) / 3 * 4

/-- Go `Encoding.DecodedLen`. -/
def Encoding.DecodedLen (enc : Encoding) (n : Nat) : Nat :=
  if enc.padChar = NoPadding then n / 4 * 3 + n % 4 * 6 / 8
  else n / 4 * 3

/-- The table lookup `enc.encode[i]`. -/
def Encoding.enc (e : Encoding) (i : Nat) : Byte := e.encode.getD i 0

/-- The table lookup `enc.decodeMap[in]`. -/
def Encoding.dec (e : Encoding) (c : Byte) : Byte := e.decodeMap.getD c.val invalidIndex

/-- The loops of `Encoding.Encode(dst, src)`: whole 3-byte groups become 4
characters stored at `dst[di..di+3]`; a remainder of 1 or 2 bytes becomes 2 or
3 characters, followed by padding only when the encoding pads. -/
def Encoding.encodeLoop (e : Encoding) : List Byte → List Byte → Nat → Option (List Byte)
  | a :: b :: c :: rest, dst, di => do
      let val := a.val <<< 16 ||| b.val <<< 8 ||| c.val
      let dst ← store dst (di + 0) (e.enc (val >>> 18 &&& 0x3F))
      let dst ← store dst (di + 1) (e.enc (val >>> 12 &&& 0x3F))
      let dst ← store dst (di + 2) (e.enc (val >>> 6 &&& 0x3F))
      let dst ← store dst (di + 3) (e.enc (val &&& 0x3F))
      e.encodeLoop rest dst (di + 4)
  | [a, b], dst, di => do
      let val := a.val <<< 16 ||| b.val <<< 8
      let dst ← store dst (di + 0) (e.enc (val >>> 18 &&& 0x3F))
      let dst ← store dst (di + 1) (e.enc (val >>> 12 &&& 0x3F))
      let dst ← store dst (di + 2) (e.enc (val >>> 6 &&& 0x3F))
      if e.padChar ≠ NoPadding then store dst (di + 3) (toByte e.padChar.toNat)
      else some dst
  | [a], dst, di => do
      let val := a.val <<< 16
      let dst ← store dst (di + 0) (e.enc (val >>> 18 &&& 0x3F))
      let dst ← store dst (di + 1) (e.enc (val >>> 12 &&& 0x3F))
      if e.padChar ≠ NoPadding then do
        let dst ← store dst (di + 2) (toByte e.padChar.toNat)
        store dst (di + 3) (toByte e.padChar.toNat)
      else some dst
  | [], dst, _ => some dst

/-- Go `Encoding.Encode(dst, src)`; the result is the buffer `dst` afterwards. -/
def Encoding.Encode (e : Encoding) (dst src : List Byte) : Option (List Byte) :=
  if src.length = 0 then some dst else e.encodeLoop src dst 0

/-- The loop `for si < len(src) && (src[si] == '\n' || src[si] == '\r') { si++ }`
of decodeQuantum, on the remaining input. -/
def skipNewlines : List Byte → Nat → List Byte × Nat
  | c :: rest, si => if c = 10 ∨ c = 13 then skipNewlines rest (si + 1) else (c :: rest, si)
  | [], si => ([], si)

/-- How the scanning loop of decodeQuantum ends. -/
inductive Scanned where
  /-- A `return si, 0, err` from inside the loop; nothing is stored. -/
  | ret (rest : List Byte) (si : Nat) (err : Option Error)
  /-- The loop is left with `dlen` sextets in `dbuf` (by `break`, or because
  `j` reached 4). -/
  | brk (dlen : Nat) (dbuf : List Byte) (rest : List Byte) (si : Nat) (err : Option Error)
  deriving DecidableEq, Repr

/-- The loop `for j := 0; j < len(dbuf); j++` of `Encoding.decodeQuantum`.
The arguments are the remaining input `src[si:]`, the index `si`, the loop
counter `j` and the sextets collected so far.  A newline leaves `j` as it is
(`j--; continue`). -/
def Encoding.scanQuantum (e : Encoding) : List Byte → Nat → Nat → List Byte → Scanned
  | [], si, j, dbuf =>
      if 4 ≤ j then .brk 4 dbuf [] si none
      else if j = 0 then .ret [] si none
      else if j = 1 ∨ e.padChar ≠ NoPadding then
        .ret [] si (some (.corruptInput ((si : Int) - (j : Int))))
      else .brk j dbuf [] si none
  | c :: rest, si, j, dbuf =>
      if 4 ≤ j then .brk 4 dbuf (c :: rest) si none
      else
        let si := si + 1
        let out := e.dec c
        if out ≠ invalidIndex then e.scanQuantum rest si (j + 1) (dbuf.set j out)
        else if c = 10 ∨ c = 13 then e.scanQuantum rest si j dbuf
        else if (c.val : Int) ≠ e.padChar then
          .ret rest si (some (.corruptInput ((si : Int) - 1)))
        else if j = 0 ∨ j = 1 then
          -- incorrect padding
          .ret rest si (some (.corruptInput ((si : Int) - 1)))
        else if j = 2 then
          -- "==" is expected, the first "=" is already consumed
          match skipNewlines rest si with
          | ([], si) =>
              -- not enough padding: `CorruptInputError(len(src))`, and si == len(src)
              .ret [] si (some (.corruptInput (si : Int)))
          | (c2 :: rest2, si) =>
              if (c2.val : Int) ≠ e.padChar then
                .ret (c2 :: rest2) si (some (.corruptInput ((si : Int) - 1)))
              else
                match skipNewlines rest2 (si + 1) with
                | ([], si) => .brk j dbuf [] si none
                | (c3 :: rest3, si) =>
                    -- trailing garbage
                    .brk j dbuf (c3 :: rest3) si (some (.corruptInput (si : Int)))
        else
          match skipNewlines rest si with
          | ([], si) => .brk j dbuf [] si none
          | (c3 :: rest3, si) =>
              -- trailing garbage
              .brk j dbuf (c3 :: rest3) si (some (.corruptInput (si : Int)))

/-- The result of decodeQuantum: the buffer afterwards, the remaining input,
and the three results `nsi`, `n`, `err`. -/
structure Quantum where
  /-- The destination buffer after the stores. -/
  dst : List Byte
  /-- The input that is left, `src[nsi:]`. -/
  rest : List Byte
  /-- The number of bytes read from src. -/
  nsi : Nat
  /-- The number of bytes written to dst. -/
  n : Nat
  /-- The error, if any. -/
  err : Option Error
  deriving DecidableEq, Repr

/-- The `case 2` arm of the final switch of decodeQuantum. -/
def Encoding.quantumCase2 (e : Encoding) (dst : List Byte) (n : Nat) (rest : List Byte)
    (si dlen : Nat) (d0 d1 d2 : Byte) (err : Option Error) : Option Quantum := do
  let dst ← store dst (n + 0) d0
  if e.strict && (d1 != 0 || d2 != 0) then
    some ⟨dst, rest, si, 0, some (.corruptInput ((si : Int) - 2))⟩
  else some ⟨dst, rest, si, dlen - 1, err⟩

/-- The `case 3` arm, which falls through to `case 2` with `dbuf[1] = 0`. -/
def Encoding.quantumCase3 (e : Encoding) (dst : List Byte) (n : Nat) (rest : List Byte)
    (si dlen : Nat) (d0 d1 d2 : Byte) (err : Option Error) : Option Quantum := do
  let dst ← store dst (n + 1) d1
  if e.strict && d2 != 0 then
    some ⟨dst, rest, si, 0, some (.corruptInput ((si : Int) - 1))⟩
  else e.quantumCase2 dst n rest si dlen d0 0 d2 err

/-- The `case 4` arm, which falls through to `case 3` with `dbuf[2] = 0`. -/
def Encoding.quantumCase4 (e : Encoding) (dst : List Byte) (n : Nat) (rest : List Byte)
    (si dlen : Nat) (d0 d1 d2 : Byte) (err : Option Error) : Option Quantum := do
  let dst ← store dst (n + 2) d2
  e.quantumCase3 dst n rest si dlen d0 d1 0 err

/-- Go `Encoding.decodeQuantum(dst[n:], src, si)`: decodes up to 4 base64 bytes.
The slice expression `dst[n:]` panics when `n` exceeds `len(dst)`; the stores
`dst[k] = ...` on that slice are stores at `n + k` in `dst`. -/
def Encoding.decodeQuantum (e : Encoding) (dst : List Byte) (n : Nat) (rest : List Byte)
    (si : Nat) : Option Quantum :=
  if dst.length < n then none
  else
    match e.scanQuantum rest si 0 [0, 0, 0, 0] with
    | .ret rest si err => some ⟨dst, rest, si, 0, err⟩
    | .brk dlen dbuf rest si err =>
        -- Convert 4x 6bit source bytes into 3 bytes
        let val := (dbuf.getD 0 0).val <<< 18 ||| (dbuf.getD 1 0).val <<< 12 |||
          (dbuf.getD 2 0).val <<< 6 ||| (dbuf.getD 3 0).val
        let d2 := toByte (val >>> 0)
        let d1 := toByte (val >>> 8)
        let d0 := toByte (val >>> 16)
        if dlen = 4 then e.quantumCase4 dst n rest si dlen d0 d1 d2 err
        else if dlen = 3 then e.quantumCase3 dst n rest si dlen d0 d1 d2 err
        else if dlen = 2 then e.quantumCase2 dst n rest si dlen d0 d1 d2 err
        else some ⟨dst, rest, si, dlen - 1, err⟩

/-- The loop `for si < len(src)` of `Encoding.Decode`, one decodeQuantum per
turn.  Every turn reads at least one byte, so `len(src) - si` turns are
enough; `fuel` bounds the number of turns, and `none` is a panic of a store or
an exhausted bound. -/
def Encoding.decodeLoop (e : Encoding) :
    Nat → List Byte → Nat → List Byte → Nat → Option (List Byte × Nat × Option Error)
  | _, dst, n, [], _ => some (dst, n, none)
  | 0, _, _, _ :: _, _ => none
  | fuel + 1, dst, n, c :: rest, si =>
      match e.decodeQuantum dst n (c :: rest) si with
      | none => none
      | some q =>
          if q.err.isSome then some (q.dst, n + q.n, q.err)
          else e.decodeLoop fuel q.dst (n + q.n) q.rest q.nsi

/-- Go `Encoding.Decode(dst, src)`: the buffer afterwards, the number of bytes
written and the error.  New line characters (`\r` and `\n`) are ignored.
(The 8- and 4-character fast paths of recent releases decode the same quanta
as decodeQuantum and are conditional on the platform word size; the loop
below is the portable path.) -/
def Encoding.Decode (e : Encoding) (dst src : List Byte) :
    Option (List Byte × Nat × Option Error) :=
  if src.length = 0 then some (dst, 0, none)
  else e.decodeLoop src.length dst 0 src 0

/-- Go `Encoding.EncodeToString(src)`: a fresh buffer of EncodedLen bytes, filled
by Encode. -/
def Encoding.EncodeToString (e : Encoding) (src : List Byte) : Option (List Byte) :=
  e.Encode (List.replicate (e.EncodedLen src.length) 0) src

/-! ## `crypto/rand` and `database/sql/driver` -/

/-- One outcome of a call of `rand.Read(b)`: the bytes the source delivers,
how many of them it stores into `b`, and its error. -/
structure RandOutcome where
  /-- The byte the source delivers for position i. -/
  bytes : Nat → Byte
  /-- The number of positions written when the source fails. -/
  written : Nat
  /-- The error of the source, `none` when it fills the buffer. -/
  err : Option Error

/-- Go `rand.Read(b)`: without an error every position of `b` is overwritten;
with an error only the first `written` positions are.  The length of `b` is
not changed by the callee. -/
def RandOutcome.Read (r : RandOutcome) (b : List Byte) : List Byte × Nat × Option Error :=
  let k := if r.err.isSome then min r.written b.length else b.length
  ((List.range b.length).map (fun i => if i < k then r.bytes i else b.getD i 0), k, r.err)

/-- The values of `driver.Value` (and of the `interface{}` a Scan receives). -/
inductive Value where
  /-- A `[]byte`. -/
  | bytes (b : List Byte)
  /-- A `string`. -/
  | text (s : List Byte)
  /-- An `int64`. -/
  | integer (i : Int)
  /-- A `float64`, by its IEEE 754 bit pattern. -/
  | float (bits : Nat)
  /-- A `bool`. -/
  | boolean (b : Bool)
  /-- The nil interface value. -/
  | null
  deriving DecidableEq, Repr

/-! ## `token.go` -/

/-- Go `func New(length int) (Token, error)` (token.go, lines 23 to 30), for one
outcome of the random source.  `make` panics on a negative length. -/
def New (r : RandOutcome) (length : Int) : Option (Token × Option Error) :=
  if length < 0 then none
  else
    let t : List Byte := List.replicate length.toNat 0
    match r.Read t with
    | (_, _, some err) => some ([], some err)
    | (t, _, none) => some (t, none)

/-- Go `func (t Token) MarshalBinary() ([]byte, error)` (lines 33 to 37): the
copy `data` is made and dropped, the receiver itself is returned. -/
def MarshalBinary (t : Token) : List Byte × Option Error :=
  let data : List Byte := List.replicate t.length 0
  let _data := t.take data.length ++ data.drop t.length
  (t, none)

/-- Go `func (t *Token) UnmarshalBinary(data []byte) error` (lines 40 to 44):
the new token and the error. -/
def UnmarshalBinary (_t : Token) (data : List Byte) : Token × Option Error :=
  let t : List Byte := List.replicate data.length 0
  let t := data.take t.length ++ t.drop data.length
  (t, none)

/-- Go `func (t Token) MarshalText() (text []byte, err error)` (lines 48 to 52). -/
def MarshalText (t : Token) : Option (List Byte × Option Error) := do
  let data : List Byte := List.replicate (tokenEncoding.EncodedLen t.length) 0
  let data ← tokenEncoding.Encode data t
  some (data, none)

/-- Go `func (t *Token) UnmarshalText(text []byte) error` (lines 56 to 60): the
token is set to a fresh buffer of DecodedLen bytes, Decode writes into that
buffer, and the count Decode returns is dropped. -/
def UnmarshalText (_t : Token) (text : List Byte) : Option (Token × Option Error) := do
  let t : List Byte := List.replicate (tokenEncoding.DecodedLen text.length) 0
  let (t, _, err) ← tokenEncoding.Decode t text
  some (t, err)

/-- Go `func (t Token) String() string` (lines 63 to 65). -/
def String (t : Token) : Option (List Byte) := tokenEncoding.EncodeToString t

/-- Go `func (t *Token) Scan(src interface{}) error` (lines 68 to 75). -/
def Scan (t : Token) (src : Value) : Token × Option Error :=
  match src with
  | .bytes data => UnmarshalBinary t data
  | _ => (t, some .errInvalidTokenData)

/-- Go `func (t Token) Value() (driver.Value, error)` (lines 78 to 80). -/
def Value.ofToken (t : Token) : Value × Option Error :=
  let (b, err) := MarshalBinary t
  (.bytes b, err)

/-! ## Notions used to state and prove the contracts -/

/-- The URL-safe base64 alphabet, by character ranges: A-Z, a-z, 0-9, `-`
and `_`. -/
def urlSafe (c : Byte) : Prop :=
  (65 ≤ c.val ∧ c.val ≤ 90) ∨ (97 ≤ c.val ∧ c.val ≤ 122) ∨ (48 ≤ c.val ∧ c.val ≤ 57) ∨
    c.val = 45 ∨ c.val = 95

instance : DecidablePred urlSafe := fun c => by
  unfold urlSafe
  infer_instance

/-- The characters Encode produces for tokenEncoding, as a list: the value of
the destination buffer that `encodeLoop` is shown to compute. -/
def encodeChars : List Byte → List Byte
  | a :: b :: c :: rest =>
      let val := a.val <<< 16 ||| b.val <<< 8 ||| c.val
      tokenEncoding.enc (val >>> 18 &&& 0x3F) :: tokenEncoding.enc (val >>> 12 &&& 0x3F) ::
        tokenEncoding.enc (val >>> 6 &&& 0x3F) :: tokenEncoding.enc (val &&& 0x3F) ::
        encodeChars rest
  | [a, b] =>
      let val := a.val <<< 16 ||| b.val <<< 8
      [tokenEncoding.enc (val >>> 18 &&& 0x3F), tokenEncoding.enc (val >>> 12 &&& 0x3F),
        tokenEncoding.enc (val >>> 6 &&& 0x3F)]
  | [a] =>
      let val := a.val <<< 16
      [tokenEncoding.enc (val >>> 18 &&& 0x3F), tokenEncoding.enc (val >>> 12 &&& 0x3F)]
  | [] => []

/-- The number of alphabet characters of a text. -/
def countValid (text : List Byte) : Nat := text.countP (fun c => decide (urlSafe c))

/-- A text has a byte that is neither in the alphabet nor a line break
(`\n` is 10, `\r` is 13). -/
def hasBad (text : List Byte) : Prop := ∃ c ∈ text, ¬ urlSafe c ∧ c ≠ 10 ∧ c ≠ 13

/-- What the scanning loop, entered with counter `j` on the input `rest`,
can end with (for tokenEncoding). -/
def ScanSpec (rest : List Byte) (j : Nat) : Scanned → Prop
  | .ret r _ e =>
      (e = none → r = [] ∧ ¬ hasBad rest ∧ j + countValid rest = 0) ∧
        (e ≠ none → hasBad rest ∨ j + countValid rest = 1)
  | .brk dlen _ rest1 _ err =>
      err = none ∧ 2 ≤ dlen ∧ dlen ≤ 4 ∧ rest1.length + dlen ≤ rest.length + j ∧
        (dlen < 4 → rest1 = [] ∧ ¬ hasBad rest ∧ j + countValid rest = dlen) ∧
        (dlen = 4 → j + countValid rest = 4 + countValid rest1 ∧ (hasBad rest ↔ hasBad rest1))

/-- The bytes Decode stores for a text of alphabet characters only, as a
list: whole groups of 4 characters give 3 bytes, a final group of 3 gives 2
bytes and a final group of 2 gives 1 byte.  It is the value of the destination
buffer that `decodeLoop` is shown to compute on such a text. -/
def decodeChars : List Byte → List Byte
  | c0 :: c1 :: c2 :: c3 :: rest =>
      let val := (tokenEncoding.dec c0).val <<< 18 ||| (tokenEncoding.dec c1).val <<< 12 |||
        (tokenEncoding.dec c2).val <<< 6 ||| (tokenEncoding.dec c3).val
      toByte (val >>> 16) :: toByte (val >>> 8) :: toByte (val >>> 0) :: decodeChars rest
  | [c0, c1, c2] =>
      let val := (tokenEncoding.dec c0).val <<< 18 ||| (tokenEncoding.dec c1).val <<< 12 |||
        (tokenEncoding.dec c2).val <<< 6
      [toByte (val >>> 16), toByte (val >>> 8)]
  | [c0, c1] =>
      let val := (tokenEncoding.dec c0).val <<< 18 ||| (tokenEncoding.dec c1).val <<< 12
      [toByte (val >>> 16)]
  | [_] => []
  | [] => []

/-- The last character of an unpadded text carries no set unused bit: after
the whole groups of 4 characters, a final group of 3 characters leaves the 2
low bits of its last sextet unused, and a final group of 2 characters leaves
the 4 low bits of its last sextet unused. -/
def trailingBitsZero : List Byte → Bool
  | _ :: _ :: _ :: _ :: rest => trailingBitsZero rest
  | [_, _, c2] => decide ((tokenEncoding.dec c2).val % 4 = 0)
  | [_, c1] => decide ((tokenEncoding.dec c1).val % 16 = 0)
  | [_] => true
  | [] => true

/-! ## Slices that share a backing array

The definitions above pass slices by value.  To state what a caller can
observe through two slice headers over one array, the definitions below keep
the arrays in a heap and let a slice point into it. -/

/-- A Go slice header: the backing array it points into, the offset of its
first element in that array, and its length. -/
structure Slice where
  /-- The index of the backing array in the heap. -/
  arr : Nat
  /-- The offset of element 0 of the slice in the backing array. -/
  off : Nat
  /-- The length of the slice. -/
  len : Nat
  deriving DecidableEq, Repr

/-- The byte arrays allocated so far, by allocation index. -/
abbrev Heap := List (List Byte)

/-- The bytes a slice denotes in a heap. -/
def Heap.load (h : Heap) (s : Slice) : List Byte :=
  ((h.getD s.arr []).drop s.off).take s.len

/-- The store `s[i] = v` through a slice header; `none` is the index panic. -/
def Heap.storeAt (h : Heap) (s : Slice) (i : Nat) (v : Byte) : Option Heap :=
  if i < s.len then some (h.set s.arr ((h.getD s.arr []).set (s.off + i) v)) else none

/-- Go `make([]byte, n)`: a fresh zeroed array and a slice over all of it. -/
def Heap.make (h : Heap) (n : Nat) : Heap × Slice :=
  (h ++ [List.replicate n 0], ⟨h.length, 0, n⟩)

/-- Go `copy(dst, src)`: the first min(len(dst), len(src)) bytes of src
overwrite the start of dst. -/
def Heap.copy (h : Heap) (dst src : Slice) : Heap :=
  let bytes := (h.load src).take dst.len
  let a := h.getD dst.arr []
  h.set dst.arr (a.take dst.off ++ bytes ++ a.drop (dst.off + bytes.length))

/-- The method MarshalBinary (token.go, lines 33 to 37) on slice headers:
`data` is allocated and filled with a copy of `t`, and the header returned is
`t` itself. -/
def MarshalBinaryOnHeap (h : Heap) (t : Slice) : Heap × Slice × Option Error :=
  let (h1, data) := h.make t.len
  let h2 := h1.copy data t
  (h2, t, none)

/-! ## Binary and scalar contracts, generation -/

theorem unmarshalBinary_eq (t : Token) (data : List Byte) :
    UnmarshalBinary t data = (data, none) := by
  simp [UnmarshalBinary]

/-- C2: binary round trip.  For every token T and every prior value of the
receiver, MarshalBinary returns no error, and UnmarshalBinary applied to its
output returns no error and leaves the receiver equal to T. -/
theorem unmarshalBinary_marshalBinary (T t0 : Token) :
    (MarshalBinary T).2 = none ∧ UnmarshalBinary t0 (MarshalBinary T).1 = (T, none) := by
  refine ⟨rfl, ?_⟩
  rw [unmarshalBinary_eq]
  rfl

/-- C3: scalar round trip.  For every token T, Value returns no error and a
byte-sequence scalar, and Scan applied to that scalar returns no error and
leaves the receiver equal to T. -/
theorem scan_value (T t0 : Token) :
    (Value.ofToken T).2 = none ∧ (∃ b, (Value.ofToken T).1 = Value.bytes b) ∧
      Scan t0 (Value.ofToken T).1 = (T, none) := by
  refine ⟨rfl, ⟨T, rfl⟩, ?_⟩
  show UnmarshalBinary t0 T = (T, none)
  exact unmarshalBinary_eq t0 T

theorem read_length (r : RandOutcome) (b : List Byte) : (r.Read b).1.length = b.length := by
  simp [RandOutcome.Read]

theorem read_err (r : RandOutcome) (b : List Byte) : (r.Read b).2.2 = r.err := rfl

theorem new_eq (r : RandOutcome) (L : Int) (hL : 0 ≤ L) :
    New r L = match r.err with
      | some err => some ([], some err)
      | none => some ((r.Read (List.replicate L.toNat 0)).1, none) := by
  have h : ¬ L < 0 := not_lt.mpr hL
  simp only [New, h, if_false]
  have h2 := read_err r (List.replicate L.toNat 0)
  rcases hr : r.Read (List.replicate L.toNat 0) with ⟨t, k, e⟩
  rw [hr] at h2
  simp only at h2
  rw [← h2]
  cases e <;> rfl

/-- C4: for every length L >= 0 and every outcome of the random source, New(L)
returns, and if it returns no error then the token has exactly L bytes. -/
theorem new_length (r : RandOutcome) (L : Int) (hL : 0 ≤ L) :
    ∃ t err, New r L = some (t, err) ∧ (err = none → (t.length : Int) = L) := by
  rw [new_eq r L hL]
  cases hr : r.err with
  | some e => exact ⟨[], some e, rfl, fun h => by cases h⟩
  | none =>
      refine ⟨_, none, rfl, fun _ => ?_⟩
      rw [read_length, List.length_replicate]
      exact Int.toNat_of_nonneg hL

theorem new_length_witness :
    ∃ t err, New ⟨fun _ => 7, 0, none⟩ 3 = some (t, err) ∧ (err = none → (t.length : Int) = 3) :=
  new_length ⟨fun _ => 7, 0, none⟩ 3 (by decide)

/-- C5: for every length L >= 0, New(L) returns an error if and only if the
random source returns one, and then New returns that same error together with
the nil token (whatever part of the buffer the source had written). -/
theorem new_error (r : RandOutcome) (L : Int) (hL : 0 ≤ L) :
    ((∃ t e, New r L = some (t, some e)) ↔ r.err ≠ none) ∧
      ∀ e, r.err = some e → New r L = some ([], some e) := by
  rw [new_eq r L hL]
  cases hr : r.err with
  | some e =>
      refine ⟨⟨fun _ => by simp, fun _ => ⟨[], e, rfl⟩⟩, ?_⟩
      intro e2 h
      cases h
      rfl
  | none =>
      refine ⟨⟨?_, fun h => absurd rfl h⟩, fun e h => by cases h⟩
      rintro ⟨t, e, h⟩
      simp at h

theorem new_error_witness :
    ((∃ t e, New ⟨fun _ => 7, 2, some (.randSource 5)⟩ 4 = some (t, some e)) ↔
        (some (Error.randSource 5) : Option Error) ≠ none) ∧
      ∀ e, some (Error.randSource 5) = some e →
        New ⟨fun _ => 7, 2, some (.randSource 5)⟩ 4 = some ([], some e) :=
  new_error ⟨fun _ => 7, 2, some (.randSource 5)⟩ 4 (by decide)

/-- C10: for every scalar value that is not a byte sequence, Scan returns
errInvalidTokenData; for every byte-sequence value Scan returns no error. -/
theorem scan_error (t : Token) (v : Value) :
    ((∀ b, v ≠ Value.bytes b) → (Scan t v).2 = some Error.errInvalidTokenData) ∧
      ((∃ b, v = Value.bytes b) → (Scan t v).2 = none) := by
  constructor
  · intro h
    cases v with
    | bytes b => exact absurd rfl (h b)
    | _ => rfl
  · rintro ⟨b, rfl⟩
    show (UnmarshalBinary t b).2 = none
    rw [unmarshalBinary_eq]

theorem scan_error_witness :
    (Scan [1, 2] (Value.integer 5)).2 = some Error.errInvalidTokenData ∧
      (Scan [1, 2] (Value.bytes [3])).2 = none :=
  ⟨(scan_error [1, 2] (Value.integer 5)).1 (fun b h => by cases h),
    (scan_error [1, 2] (Value.bytes [3])).2 ⟨[3], rfl⟩⟩

/-! ## Arithmetic of a quantum -/

theorem lor_eq_add (x y k : Nat) (h : y < 2 ^ k) : x * 2 ^ k ||| y = x * 2 ^ k + y := by
  rw [Nat.mul_comm x (2 ^ k)]
  exact (Nat.mul_add_lt_is_or h x).symm

theorem pack3 (a b c : Nat) (hb : b < 256) (hc : c < 256) :
    a <<< 16 ||| b <<< 8 ||| c = a * 65536 + b * 256 + c := by
  rw [Nat.lor_assoc, Nat.shiftLeft_eq, Nat.shiftLeft_eq, lor_eq_add b c 8 hc,
    lor_eq_add a _ 16 (by norm_num; omega)]
  norm_num
  ring

theorem pack4 (s0 s1 s2 s3 : Nat) (h1 : s1 < 64) (h2 : s2 < 64) (h3 : s3 < 64) :
    s0 <<< 18 ||| s1 <<< 12 ||| s2 <<< 6 ||| s3 = s0 * 262144 + s1 * 4096 + s2 * 64 + s3 := by
  rw [Nat.lor_assoc, Nat.lor_assoc, Nat.shiftLeft_eq, Nat.shiftLeft_eq, Nat.shiftLeft_eq,
    lor_eq_add s2 s3 6 h3, lor_eq_add s1 _ 12 (by norm_num; omega),
    lor_eq_add s0 _ 18 (by norm_num; omega)]
  norm_num
  ring

/-! ## The tables of tokenEncoding -/

theorem tokenEncoding_padChar : tokenEncoding.padChar = NoPadding := rfl

theorem tokenEncoding_strict : tokenEncoding.strict = false := rfl

theorem dec_enc : ∀ s, s < 64 → tokenEncoding.dec (tokenEncoding.enc s) = toByte s := by
  decide

theorem enc_urlSafe : ∀ s, s < 64 → urlSafe (tokenEncoding.enc s) := by
  decide

set_option maxRecDepth 100000 in
theorem dec_valid_iff : ∀ c : Byte, tokenEncoding.dec c ≠ invalidIndex ↔ urlSafe c := by
  decide

theorem and_63_lt (x : Nat) : x &&& 0x3F < 64 :=
  Nat.lt_succ_of_le Nat.and_le_right

/-! ## Encode -/

theorem list_induction3 {α : Type} {P : List α → Prop} (h0 : P []) (h1 : ∀ a, P [a])
    (h2 : ∀ a b, P [a, b]) (h3 : ∀ a b c l, P l → P (a :: b :: c :: l)) : ∀ l, P l
  | [] => h0
  | [a] => h1 a
  | [a, b] => h2 a b
  | a :: b :: c :: l => h3 a b c l (list_induction3 h0 h1 h2 h3 l)

theorem store_append (pre s : List Byte) (k : Nat) (v : Byte) :
    store (pre ++ s) (pre.length + k) v = (store s k v).map (fun r => pre ++ r) := by
  unfold store
  by_cases h : k < s.length
  · simp [h, List.set_append_right]
  · simp [h]

theorem length_encodeChars (src : List Byte) :
    (encodeChars src).length = tokenEncoding.EncodedLen src.length := by
  induction src using list_induction3 with
  | h0 => rfl
  | h1 a => simp [encodeChars, Encoding.EncodedLen, tokenEncoding_padChar]
  | h2 a b => simp [encodeChars, Encoding.EncodedLen, tokenEncoding_padChar]
  | h3 a b c l ih =>
      simp only [encodeChars, List.length_cons, ih, Encoding.EncodedLen, tokenEncoding_padChar,
        if_true]
      omega

theorem urlSafe_encodeChars (src : List Byte) : ∀ c ∈ encodeChars src, urlSafe c := by
  induction src using list_induction3 with
  | h0 => simp [encodeChars]
  | h1 a =>
      intro c hc
      simp only [encodeChars, List.mem_cons, List.mem_singleton, List.not_mem_nil, or_false] at hc
      rcases hc with rfl | rfl <;> exact enc_urlSafe _ (and_63_lt _)
  | h2 a b =>
      intro c hc
      simp only [encodeChars, List.mem_cons, List.mem_singleton, List.not_mem_nil, or_false] at hc
      rcases hc with rfl | rfl | rfl <;> exact enc_urlSafe _ (and_63_lt _)
  | h3 a b c l ih =>
      intro x hx
      simp only [encodeChars, List.mem_cons] at hx
      rcases hx with rfl | rfl | rfl | rfl | hx
      · exact enc_urlSafe _ (and_63_lt _)
      · exact enc_urlSafe _ (and_63_lt _)
      · exact enc_urlSafe _ (and_63_lt _)
      · exact enc_urlSafe _ (and_63_lt _)
      · exact ih x hx

theorem encodeLoop_eq (src : List Byte) : ∀ pre post : List Byte,
    (encodeChars src).length ≤ post.length →
      tokenEncoding.encodeLoop src (pre ++ post) pre.length =
        some (pre ++ encodeChars src ++ post.drop (encodeChars src).length) := by
  induction src using list_induction3 with
  | h0 => intro pre post _; simp [Encoding.encodeLoop, encodeChars]
  | h1 a =>
      intro pre post h
      rcases post with _ | ⟨x0, _ | ⟨x1, post⟩⟩
      · simp [encodeChars] at h
      · simp [encodeChars] at h
      · simp [Encoding.encodeLoop, encodeChars, store_append, store, tokenEncoding_padChar]
  | h2 a b =>
      intro pre post h
      rcases post with _ | ⟨x0, _ | ⟨x1, _ | ⟨x2, post⟩⟩⟩
      · simp [encodeChars] at h
      · simp [encodeChars] at h
      · simp [encodeChars] at h
      · simp [Encoding.encodeLoop, encodeChars, store_append, store, tokenEncoding_padChar]
  | h3 a b c l ih =>
      intro pre post h
      rcases post with _ | ⟨x0, _ | ⟨x1, _ | ⟨x2, _ | ⟨x3, post⟩⟩⟩⟩
      · simp [encodeChars] at h
      · simp [encodeChars] at h
      · simp [encodeChars] at h
      · simp [encodeChars] at h
      · have hl : (encodeChars l).length ≤ post.length := by
          simpa [encodeChars] using h
        have := ih (pre ++ [tokenEncoding.enc ((a.val <<< 16 ||| b.val <<< 8 ||| c.val) >>> 18 &&& 0x3F),
          tokenEncoding.enc ((a.val <<< 16 ||| b.val <<< 8 ||| c.val) >>> 12 &&& 0x3F),
          tokenEncoding.enc ((a.val <<< 16 ||| b.val <<< 8 ||| c.val) >>> 6 &&& 0x3F),
          tokenEncoding.enc ((a.val <<< 16 ||| b.val <<< 8 ||| c.val) &&& 0x3F)]) post hl
        simp only [List.length_append, List.length_cons, List.length_nil, List.append_assoc,
          List.cons_append, List.nil_append] at this
        simp [Encoding.encodeLoop, encodeChars, store_append, store, this]

theorem marshalText_eq (T : Token) : MarshalText T = some (encodeChars T, none) := by
  unfold MarshalText Encoding.Encode
  by_cases h : T.length = 0
  · have : T = [] := List.length_eq_zero.mp h
    subst this
    rfl
  · have := encodeLoop_eq T [] (List.replicate (tokenEncoding.EncodedLen T.length) 0)
      (by simp [length_encodeChars])
    simp only [List.nil_append, List.length_nil] at this
    simp [h, this, length_encodeChars]

/-- C6: for every token T, MarshalText returns no error and every byte of its
output is one of A-Z, a-z, 0-9, `-` or `_`; in particular none is the padding
character `=` (61). -/
theorem marshalText_alphabet (T : Token) :
    ∃ text, MarshalText T = some (text, none) ∧ ∀ c ∈ text, urlSafe c ∧ c ≠ 61 := by
  refine ⟨encodeChars T, marshalText_eq T, fun c hc => ?_⟩
  have h := urlSafe_encodeChars T c hc
  refine ⟨h, ?_⟩
  rintro rfl
  revert h
  decide

/-! ## The scanning loop of decodeQuantum for tokenEncoding -/

theorem not_urlSafe_newline (c : Byte) (h : c = 10 ∨ c = 13) : ¬ urlSafe c := by
  rcases h with rfl | rfl <;> decide

theorem scan_full (rest : List Byte) (si j : Nat) (dbuf : List Byte) (hj : 4 ≤ j) :
    tokenEncoding.scanQuantum rest si j dbuf = .brk 4 dbuf rest si none := by
  cases rest <;> simp [Encoding.scanQuantum, hj]

theorem scan_cons_safe (c : Byte) (rest : List Byte) (si j : Nat) (dbuf : List Byte)
    (hj : j < 4) (hc : urlSafe c) :
    tokenEncoding.scanQuantum (c :: rest) si j dbuf =
      tokenEncoding.scanQuantum rest (si + 1) (j + 1) (dbuf.set j (tokenEncoding.dec c)) := by
  have h1 : ¬ 4 ≤ j := by omega
  have h2 := (dec_valid_iff c).mpr hc
  simp [Encoding.scanQuantum, h1, h2]

theorem scan_cons_newline (c : Byte) (rest : List Byte) (si j : Nat) (dbuf : List Byte)
    (hj : j < 4) (hc : c = 10 ∨ c = 13) :
    tokenEncoding.scanQuantum (c :: rest) si j dbuf =
      tokenEncoding.scanQuantum rest (si + 1) j dbuf := by
  have h1 : ¬ 4 ≤ j := by omega
  have h2 : ¬ tokenEncoding.dec c ≠ invalidIndex :=
    fun h => not_urlSafe_newline c hc ((dec_valid_iff c).mp h)
  simp only [Encoding.scanQuantum, h1, h2, hc, if_true, if_false]

theorem scan_cons_bad (c : Byte) (rest : List Byte) (si j : Nat) (dbuf : List Byte)
    (hj : j < 4) (hc : ¬ urlSafe c) (hn : ¬ (c = 10 ∨ c = 13)) :
    tokenEncoding.scanQuantum (c :: rest) si j dbuf =
      .ret rest (si + 1) (some (.corruptInput (((si + 1 : Nat) : Int) - 1))) := by
  have h1 : ¬ 4 ≤ j := by omega
  have h2 : ¬ tokenEncoding.dec c ≠ invalidIndex := fun h => hc ((dec_valid_iff c).mp h)
  have h3 : ((c.val : Nat) : Int) ≠ tokenEncoding.padChar := by
    rw [tokenEncoding_padChar]
    unfold NoPadding
    omega
  simp only [Encoding.scanQuantum, h1, h2, hn, h3, if_true, if_false, ne_eq, not_false_eq_true]

theorem hasBad_nil : ¬ hasBad [] := by
  simp [hasBad]

theorem hasBad_cons_safe (c : Byte) (rest : List Byte) (hc : urlSafe c) :
    hasBad (c :: rest) ↔ hasBad rest := by
  simp [hasBad, hc]

theorem hasBad_cons_newline (c : Byte) (rest : List Byte) (hc : c = 10 ∨ c = 13) :
    hasBad (c :: rest) ↔ hasBad rest := by
  unfold hasBad
  constructor
  · rintro ⟨x, hx, h1, h2, h3⟩
    rcases List.mem_cons.mp hx with rfl | hx
    · rcases hc with h | h
      · exact absurd h h2
      · exact absurd h h3
    · exact ⟨x, hx, h1, h2, h3⟩
  · rintro ⟨x, hx, h⟩
    exact ⟨x, List.mem_cons_of_mem c hx, h⟩

theorem hasBad_cons_bad (c : Byte) (rest : List Byte) (hc : ¬ urlSafe c)
    (hn : ¬ (c = 10 ∨ c = 13)) : hasBad (c :: rest) :=
  ⟨c, List.mem_cons_self c rest, hc, fun h => hn (Or.inl h), fun h => hn (Or.inr h)⟩

theorem countValid_nil : countValid [] = 0 := rfl

theorem countValid_cons_safe (c : Byte) (rest : List Byte) (hc : urlSafe c) :
    countValid (c :: rest) = countValid rest + 1 := by
  simp [countValid, hc]

theorem countValid_cons_other (c : Byte) (rest : List Byte) (hc : ¬ urlSafe c) :
    countValid (c :: rest) = countValid rest := by
  simp [countValid, hc]

theorem scan_spec (rest : List Byte) : ∀ (si j : Nat) (dbuf : List Byte), j ≤ 4 →
    ScanSpec rest j (tokenEncoding.scanQuantum rest si j dbuf) := by
  induction rest with
  | nil =>
      intro si j dbuf hj
      have hp : tokenEncoding.padChar = NoPadding := rfl
      interval_cases j <;>
        simp [Encoding.scanQuantum, ScanSpec, hasBad_nil, countValid_nil, hp]
  | cons c rest ih =>
      intro si j dbuf hj
      by_cases h4 : 4 ≤ j
      · rw [scan_full _ _ _ _ h4]
        have : j = 4 := by omega
        subst this
        simp [ScanSpec]
      · have hj4 : j < 4 := by omega
        by_cases hc : urlSafe c
        · rw [scan_cons_safe c rest si j dbuf hj4 hc]
          have h := ih (si + 1) (j + 1) (dbuf.set j (tokenEncoding.dec c)) (by omega)
          revert h
          generalize tokenEncoding.scanQuantum rest (si + 1) (j + 1) _ = R
          cases R with
          | ret r s e =>
              simp only [ScanSpec, hasBad_cons_safe c rest hc, countValid_cons_safe c rest hc]
              rintro ⟨h1, h2⟩
              refine ⟨fun he => ?_, fun he => ?_⟩
              · obtain ⟨a, b, c⟩ := h1 he
                omega
              · rcases h2 he with h | h
                · exact Or.inl h
                · exact Or.inr (by omega)
          | brk dlen d r s e =>
              simp only [ScanSpec, hasBad_cons_safe c rest hc, countValid_cons_safe c rest hc,
                List.length_cons]
              rintro ⟨h1, h2, h3, h5, h6, h7⟩
              refine ⟨h1, h2, h3, by omega, fun hd => ?_, fun hd => ?_⟩
              · obtain ⟨a, b, c⟩ := h6 hd
                exact ⟨a, b, by omega⟩
              · obtain ⟨a, b⟩ := h7 hd
                exact ⟨by omega, b⟩
        · by_cases hn : c = 10 ∨ c = 13
          · rw [scan_cons_newline c rest si j dbuf hj4 hn]
            have h := ih (si + 1) j dbuf hj
            revert h
            generalize tokenEncoding.scanQuantum rest (si + 1) j dbuf = R
            cases R with
            | ret r s e =>
                simp only [ScanSpec, hasBad_cons_newline c rest hn,
                  countValid_cons_other c rest hc]
                exact fun h => h
            | brk dlen d r s e =>
                simp only [ScanSpec, hasBad_cons_newline c rest hn,
                  countValid_cons_other c rest hc, List.length_cons]
                rintro ⟨h1, h2, h3, h5, h6, h7⟩
                exact ⟨h1, h2, h3, by omega, h6, h7⟩
          · rw [scan_cons_bad c rest si j dbuf hj4 hc hn]
            simp only [ScanSpec]
            constructor
            · intro h
              cases h
            · intro _
              exact Or.inl (hasBad_cons_bad c rest hc hn)

/-! ## decodeQuantum and Decode never panic for a buffer of DecodedLen bytes -/

theorem decodedLen_eq (k : Nat) : tokenEncoding.DecodedLen k = k / 4 * 3 + k % 4 * 6 / 8 := by
  simp [Encoding.DecodedLen, tokenEncoding_padChar]

theorem quantumCase2_eq (dst : List Byte) (n : Nat) (rest : List Byte) (si dlen : Nat)
    (d0 d1 d2 : Byte) (err : Option Error) (h : n < dst.length) :
    tokenEncoding.quantumCase2 dst n rest si dlen d0 d1 d2 err =
      some ⟨dst.set n d0, rest, si, dlen - 1, err⟩ := by
  simp [Encoding.quantumCase2, store, h, tokenEncoding_strict]

theorem quantumCase3_eq (dst : List Byte) (n : Nat) (rest : List Byte) (si dlen : Nat)
    (d0 d1 d2 : Byte) (err : Option Error) (h : n + 1 < dst.length) :
    tokenEncoding.quantumCase3 dst n rest si dlen d0 d1 d2 err =
      some ⟨(dst.set (n + 1) d1).set n d0, rest, si, dlen - 1, err⟩ := by
  have h2 : n < (dst.set (n + 1) d1).length := by
    rw [List.length_set]; omega
  simp [Encoding.quantumCase3, store, h, tokenEncoding_strict, quantumCase2_eq _ _ _ _ _ _ _ _ _ h2]

theorem quantumCase4_eq (dst : List Byte) (n : Nat) (rest : List Byte) (si dlen : Nat)
    (d0 d1 d2 : Byte) (err : Option Error) (h : n + 2 < dst.length) :
    tokenEncoding.quantumCase4 dst n rest si dlen d0 d1 d2 err =
      some ⟨((dst.set (n + 2) d2).set (n + 1) d1).set n d0, rest, si, dlen - 1, err⟩ := by
  have h2 : n + 1 < (dst.set (n + 2) d2).length := by
    rw [List.length_set]; omega
  simp [Encoding.quantumCase4, store, h, quantumCase3_eq _ _ _ _ _ _ _ _ _ h2]

theorem decodeQuantum_total (dst : List Byte) (n : Nat) (rest : List Byte) (si : Nat)
    (hb : n + tokenEncoding.DecodedLen rest.length ≤ dst.length) :
    ∃ q, tokenEncoding.decodeQuantum dst n rest si = some q ∧ q.dst.length = dst.length ∧
      (q.err = none →
        (rest ≠ [] → q.rest.length < rest.length) ∧
        n + q.n + tokenEncoding.DecodedLen q.rest.length ≤ dst.length ∧
        (hasBad rest ↔ hasBad q.rest) ∧
        (countValid rest % 4 = 1 ↔ countValid q.rest % 4 = 1)) ∧
      (q.err ≠ none → hasBad rest ∨ countValid rest % 4 = 1) := by
  rw [decodedLen_eq] at hb
  have hn : ¬ dst.length < n := by omega
  have hs := scan_spec rest si 0 [0, 0, 0, 0] (by omega)
  unfold Encoding.decodeQuantum
  simp only [hn, if_false]
  revert hs
  generalize tokenEncoding.scanQuantum rest si 0 [0, 0, 0, 0] = R
  cases R with
  | ret r s e =>
      simp only [ScanSpec, Nat.zero_add]
      rintro ⟨h1, h2⟩
      refine ⟨_, rfl, rfl, fun he => ?_, fun he => ?_⟩
      · obtain ⟨a, b, c⟩ := h1 he
        subst a
        simp only [decodedLen_eq, List.length_nil, hasBad_nil, countValid_nil, iff_false]
        refine ⟨fun hr => ?_, by omega, b, by omega⟩
        exact List.length_pos.mpr hr
      · rcases h2 he with h | h
        · exact Or.inl h
        · exact Or.inr (by omega)
  | brk dlen d r s e =>
      simp only [ScanSpec, Nat.zero_add, Nat.add_zero]
      rintro ⟨h1, h2, h3, h5, h6, h7⟩
      subst h1
      have hd : dlen = 4 ∨ dlen = 3 ∨ dlen = 2 := by omega
      rcases hd with hd | hd | hd
      · subst hd
        obtain ⟨a, b⟩ := h7 rfl
        rw [if_pos rfl, quantumCase4_eq _ _ _ _ _ _ _ _ _ (by omega)]
        refine ⟨_, rfl, by simp, fun _ => ?_, fun he => absurd rfl he⟩
        simp only [decodedLen_eq]
        exact ⟨fun _ => by omega, by omega, b, by omega⟩
      · subst hd
        obtain ⟨a, b, c⟩ := h6 (by omega)
        subst a
        rw [if_neg (by omega), if_pos rfl, quantumCase3_eq _ _ _ _ _ _ _ _ _ (by omega)]
        refine ⟨_, rfl, by simp, fun _ => ?_, fun he => absurd rfl he⟩
        simp only [decodedLen_eq, List.length_nil, hasBad_nil, countValid_nil, iff_false]
        exact ⟨fun _ => by simp at h5; omega, by simp at h5; omega, b, by omega⟩
      · subst hd
        obtain ⟨a, b, c⟩ := h6 (by omega)
        subst a
        rw [if_neg (by omega), if_neg (by omega), if_pos rfl,
          quantumCase2_eq _ _ _ _ _ _ _ _ _ (by omega)]
        refine ⟨_, rfl, by simp, fun _ => ?_, fun he => absurd rfl he⟩
        simp only [decodedLen_eq, List.length_nil, hasBad_nil, countValid_nil, iff_false]
        exact ⟨fun _ => by simp at h5; omega, by simp at h5; omega, b, by omega⟩

theorem decodeLoop_total : ∀ (fuel : Nat) (rest dst : List Byte) (n si : Nat),
    rest.length ≤ fuel → n + tokenEncoding.DecodedLen rest.length ≤ dst.length →
    ∃ out k err, tokenEncoding.decodeLoop fuel dst n rest si = some (out, k, err) ∧
      out.length = dst.length ∧ (err ≠ none ↔ hasBad rest ∨ countValid rest % 4 = 1) := by
  intro fuel
  induction fuel with
  | zero =>
      intro rest dst n si hf _
      have : rest = [] := List.length_eq_zero.mp (by omega)
      subst this
      exact ⟨dst, n, none, by simp [Encoding.decodeLoop], rfl, by simp [hasBad_nil, countValid_nil]⟩
  | succ fuel ih =>
      intro rest dst n si hf hb
      cases rest with
      | nil =>
          exact ⟨dst, n, none, by simp [Encoding.decodeLoop], rfl,
            by simp [hasBad_nil, countValid_nil]⟩
      | cons c r =>
          obtain ⟨q, hq, hlen, hnone, hsome⟩ := decodeQuantum_total dst n (c :: r) si hb
          simp only [Encoding.decodeLoop, hq]
          cases he : q.err with
          | some e =>
              refine ⟨q.dst, n + q.n, some e, by simp, hlen, ?_⟩
              have := hsome (by rw [he]; simp)
              simp [this]
          | none =>
              obtain ⟨h1, h2, h3, h4⟩ := hnone he
              have hlt := h1 (by simp)
              simp only [List.length_cons] at hlt hf
              obtain ⟨out, k, err, ho, hol, hoe⟩ :=
                ih q.rest q.dst (n + q.n) q.nsi (by omega) (by rw [hlen]; exact h2)
              refine ⟨out, k, err, by simpa using ho, by rw [hol, hlen], ?_⟩
              rw [hoe, h3, h4]

/-! ## Decoding what Encode produced -/

theorem and_63 (x : Nat) : x &&& 0x3F = x % 64 := Nat.and_pow_two_sub_one_eq_mod x 6

theorem repack (val : Nat) (h : val < 16777216) :
    (val >>> 18 &&& 0x3F) <<< 18 ||| (val >>> 12 &&& 0x3F) <<< 12 |||
      (val >>> 6 &&& 0x3F) <<< 6 ||| (val &&& 0x3F) = val := by
  rw [pack4 _ _ _ _ (by rw [and_63]; omega) (by rw [and_63]; omega) (by rw [and_63]; omega)]
  simp only [and_63, Nat.shiftRight_eq_div_pow]
  norm_num
  omega

theorem toByte_val (x : Nat) (h : x < 64) : (toByte x).val = x :=
  Nat.mod_eq_of_lt (by omega)

theorem scan_enc4 (s0 s1 s2 s3 : Nat) (h0 : s0 < 64) (h1 : s1 < 64) (h2 : s2 < 64)
    (h3 : s3 < 64) (rest : List Byte) (si : Nat) :
    tokenEncoding.scanQuantum (tokenEncoding.enc s0 :: tokenEncoding.enc s1 ::
        tokenEncoding.enc s2 :: tokenEncoding.enc s3 :: rest) si 0 [0, 0, 0, 0] =
      .brk 4 [toByte s0, toByte s1, toByte s2, toByte s3] rest (si + 4) none := by
  rw [scan_cons_safe _ _ _ _ _ (by omega) (enc_urlSafe s0 h0),
    scan_cons_safe _ _ _ _ _ (by omega) (enc_urlSafe s1 h1),
    scan_cons_safe _ _ _ _ _ (by omega) (enc_urlSafe s2 h2),
    scan_cons_safe _ _ _ _ _ (by omega) (enc_urlSafe s3 h3),
    scan_full _ _ _ _ (by omega), dec_enc s0 h0, dec_enc s1 h1, dec_enc s2 h2, dec_enc s3 h3]
  rfl

theorem scan_enc3 (s0 s1 s2 : Nat) (h0 : s0 < 64) (h1 : s1 < 64) (h2 : s2 < 64) (si : Nat) :
    tokenEncoding.scanQuantum [tokenEncoding.enc s0, tokenEncoding.enc s1,
        tokenEncoding.enc s2] si 0 [0, 0, 0, 0] =
      .brk 3 [toByte s0, toByte s1, toByte s2, 0] [] (si + 3) none := by
  rw [scan_cons_safe _ _ _ _ _ (by omega) (enc_urlSafe s0 h0),
    scan_cons_safe _ _ _ _ _ (by omega) (enc_urlSafe s1 h1),
    scan_cons_safe _ _ _ _ _ (by omega) (enc_urlSafe s2 h2),
    dec_enc s0 h0, dec_enc s1 h1, dec_enc s2 h2]
  rfl

theorem scan_enc2 (s0 s1 : Nat) (h0 : s0 < 64) (h1 : s1 < 64) (si : Nat) :
    tokenEncoding.scanQuantum [tokenEncoding.enc s0, tokenEncoding.enc s1] si 0 [0, 0, 0, 0] =
      .brk 2 [toByte s0, toByte s1, 0, 0] [] (si + 2) none := by
  rw [scan_cons_safe _ _ _ _ _ (by omega) (enc_urlSafe s0 h0),
    scan_cons_safe _ _ _ _ _ (by omega) (enc_urlSafe s1 h1),
    dec_enc s0 h0, dec_enc s1 h1]
  rfl

theorem decodeQuantum_enc4 (a b c : Byte) (pre post rest : List Byte) (x0 x1 x2 : Byte)
    (si : Nat) (val : Nat) (hv : val = a.val <<< 16 ||| b.val <<< 8 ||| c.val) :
    tokenEncoding.decodeQuantum (pre ++ x0 :: x1 :: x2 :: post) pre.length
        (tokenEncoding.enc (val >>> 18 &&& 0x3F) :: tokenEncoding.enc (val >>> 12 &&& 0x3F) ::
          tokenEncoding.enc (val >>> 6 &&& 0x3F) :: tokenEncoding.enc (val &&& 0x3F) :: rest) si =
      some ⟨pre ++ a :: b :: c :: post, rest, si + 4, 3, none⟩ := by
  have ha := a.isLt
  have hb := b.isLt
  have hc := c.isLt
  have hp : val = a.val * 65536 + b.val * 256 + c.val := by
    rw [hv, pack3 _ _ _ hb hc]
  have hlt : val < 16777216 := by omega
  have hn : ¬ (pre ++ x0 :: x1 :: x2 :: post).length < pre.length := by
    simp
  unfold Encoding.decodeQuantum
  rw [if_neg hn, scan_enc4 _ _ _ _ (and_63_lt _) (and_63_lt _) (and_63_lt _) (and_63_lt _)]
  simp only [List.getD_cons_zero, List.getD_cons_succ, toByte_val _ (and_63_lt _),
    repack val hlt, if_true]
  rw [quantumCase4_eq _ _ _ _ _ _ _ _ _ (by simp)]
  have e0 : toByte (val >>> 16) = a := by
    apply Fin.ext
    show val >>> 16 % 256 = a.val
    rw [Nat.shiftRight_eq_div_pow]
    norm_num
    omega
  have e1 : toByte (val >>> 8) = b := by
    apply Fin.ext
    show val >>> 8 % 256 = b.val
    rw [Nat.shiftRight_eq_div_pow]
    norm_num
    omega
  have e2 : toByte (val >>> 0) = c := by
    apply Fin.ext
    show val >>> 0 % 256 = c.val
    rw [Nat.shiftRight_eq_div_pow]
    norm_num
    omega
  rw [e0, e1, e2]
  simp [List.set_append_right]

theorem decodeQuantum_enc3 (a b : Byte) (pre post : List Byte) (x0 x1 : Byte)
    (si : Nat) (val : Nat) (hv : val = a.val <<< 16 ||| b.val <<< 8) :
    tokenEncoding.decodeQuantum (pre ++ x0 :: x1 :: post) pre.length
        [tokenEncoding.enc (val >>> 18 &&& 0x3F), tokenEncoding.enc (val >>> 12 &&& 0x3F),
          tokenEncoding.enc (val >>> 6 &&& 0x3F)] si =
      some ⟨pre ++ a :: b :: post, [], si + 3, 2, none⟩ := by
  have ha := a.isLt
  have hb := b.isLt
  have hp : val = a.val * 65536 + b.val * 256 := by
    have := pack3 a.val b.val 0 hb (by omega)
    rw [Nat.or_zero] at this
    rw [hv, this]
    omega
  have hlt : val < 16777216 := by omega
  have h0 : val &&& 0x3F = 0 := by
    rw [and_63]; omega
  have hr := repack val hlt
  rw [h0] at hr
  have hn : ¬ (pre ++ x0 :: x1 :: post).length < pre.length := by
    simp
  unfold Encoding.decodeQuantum
  rw [if_neg hn, scan_enc3 _ _ _ (and_63_lt _) (and_63_lt _) (and_63_lt _)]
  simp only [List.getD_cons_zero, List.getD_cons_succ, toByte_val _ (and_63_lt _),
    Fin.val_zero, hr, if_true, if_false]
  rw [quantumCase3_eq _ _ _ _ _ _ _ _ _ (by simp)]
  have e0 : toByte (val >>> 16) = a := by
    apply Fin.ext
    show val >>> 16 % 256 = a.val
    rw [Nat.shiftRight_eq_div_pow]
    norm_num
    omega
  have e1 : toByte (val >>> 8) = b := by
    apply Fin.ext
    show val >>> 8 % 256 = b.val
    rw [Nat.shiftRight_eq_div_pow]
    norm_num
    omega
  rw [e0, e1]
  simp [List.set_append_right]

theorem decodeQuantum_enc2 (a : Byte) (pre post : List Byte) (x0 : Byte)
    (si : Nat) (val : Nat) (hv : val = a.val <<< 16) :
    tokenEncoding.decodeQuantum (pre ++ x0 :: post) pre.length
        [tokenEncoding.enc (val >>> 18 &&& 0x3F), tokenEncoding.enc (val >>> 12 &&& 0x3F)] si =
      some ⟨pre ++ a :: post, [], si + 2, 1, none⟩ := by
  have ha := a.isLt
  have hp : val = a.val * 65536 := by
    rw [hv, Nat.shiftLeft_eq]
  have hlt : val < 16777216 := by omega
  have h0 : val &&& 0x3F = 0 := by
    rw [and_63]; omega
  have h1 : val >>> 6 &&& 0x3F = 0 := by
    rw [and_63, Nat.shiftRight_eq_div_pow]
    norm_num
    omega
  have hr := repack val hlt
  rw [h0, h1] at hr
  have hn : ¬ (pre ++ x0 :: post).length < pre.length := by
    simp
  unfold Encoding.decodeQuantum
  rw [if_neg hn, scan_enc2 _ _ (and_63_lt _) (and_63_lt _)]
  simp only [List.getD_cons_zero, List.getD_cons_succ, toByte_val _ (and_63_lt _),
    Fin.val_zero, hr, if_true, if_false]
  rw [quantumCase2_eq _ _ _ _ _ _ _ _ _ (by simp)]
  have e0 : toByte (val >>> 16) = a := by
    apply Fin.ext
    show val >>> 16 % 256 = a.val
    rw [Nat.shiftRight_eq_div_pow]
    norm_num
    omega
  rw [e0]
  simp [List.set_append_right]

theorem decodeLoop_encodeChars (T : List Byte) : ∀ (pre post : List Byte) (fuel si : Nat),
    T.length ≤ post.length → (encodeChars T).length ≤ fuel →
    tokenEncoding.decodeLoop fuel (pre ++ post) pre.length (encodeChars T) si =
      some (pre ++ T ++ post.drop T.length, pre.length + T.length, none) := by
  induction T using list_induction3 with
  | h0 =>
      intro pre post fuel si _ _
      simp [encodeChars, Encoding.decodeLoop]
  | h1 a =>
      intro pre post fuel si hp hf
      rcases post with _ | ⟨x0, post⟩
      · simp at hp
      · rcases fuel with _ | fuel
        · simp [encodeChars] at hf
        · simp only [encodeChars, Encoding.decodeLoop,
            decodeQuantum_enc2 a pre post x0 si _ rfl]
          simp
  | h2 a b =>
      intro pre post fuel si hp hf
      rcases post with _ | ⟨x0, _ | ⟨x1, post⟩⟩
      · simp at hp
      · simp at hp
      · rcases fuel with _ | fuel
        · simp [encodeChars] at hf
        · simp only [encodeChars, Encoding.decodeLoop,
            decodeQuantum_enc3 a b pre post x0 x1 si _ rfl]
          simp
  | h3 a b c l ih =>
      intro pre post fuel si hp hf
      rcases post with _ | ⟨x0, _ | ⟨x1, _ | ⟨x2, post⟩⟩⟩
      · simp at hp
      · simp at hp
      · simp at hp
      · rcases fuel with _ | fuel
        · simp [encodeChars] at hf
        · have hp2 : l.length ≤ post.length := by
            simpa using hp
          have hf2 : (encodeChars l).length ≤ fuel := by
            simp only [encodeChars, List.length_cons] at hf
            omega
          have h := ih (pre ++ [a, b, c]) post fuel (si + 4) hp2 hf2
          simp only [List.length_append, List.length_cons, List.length_nil, List.append_assoc,
            List.cons_append, List.nil_append] at h
          simp only [encodeChars, Encoding.decodeLoop,
            decodeQuantum_enc4 a b c pre post _ x0 x1 x2 si _ rfl]
          simp only [Option.isSome_none, Bool.false_eq_true, if_false, h]
          simp
          omega

theorem decodedLen_encodedLen (n : Nat) :
    tokenEncoding.DecodedLen (tokenEncoding.EncodedLen n) = n := by
  simp only [Encoding.DecodedLen, Encoding.EncodedLen, tokenEncoding_padChar, if_true]
  omega

theorem unmarshalText_encodeChars (t0 T : Token) :
    UnmarshalText t0 (encodeChars T) = some (T, none) := by
  unfold UnmarshalText Encoding.Decode
  rw [length_encodeChars, decodedLen_encodedLen]
  by_cases h : T.length = 0
  · have : T = [] := List.length_eq_zero.mp h
    subst this
    rfl
  · have hne : tokenEncoding.EncodedLen T.length ≠ 0 := by
      simp only [Encoding.EncodedLen, tokenEncoding_padChar, if_true]
      omega
    have := decodeLoop_encodeChars T [] (List.replicate T.length 0)
      (tokenEncoding.EncodedLen T.length) 0 (by simp) (by rw [length_encodeChars])
    simp only [List.nil_append, List.length_nil] at this
    simp [hne, this]

/-- C1: text round trip.  For every token T (any length, 0 included) and every
prior value of the receiver, MarshalText returns a text and no error, and
UnmarshalText applied to that text returns no error and leaves the receiver
equal to T. -/
theorem unmarshalText_marshalText (T t0 : Token) :
    ∃ text, MarshalText T = some (text, none) ∧ UnmarshalText t0 text = some (T, none) :=
  ⟨encodeChars T, marshalText_eq T, unmarshalText_encodeChars t0 T⟩

/-! ## The errors of UnmarshalText -/

theorem unmarshalText_total (t : Token) (text : List Byte) :
    ∃ tok err, UnmarshalText t text = some (tok, err) ∧
      tok.length = tokenEncoding.DecodedLen text.length ∧
      (err ≠ none ↔ hasBad text ∨ countValid text % 4 = 1) := by
  unfold UnmarshalText Encoding.Decode
  by_cases h : text.length = 0
  · have : text = [] := List.length_eq_zero.mp h
    subst this
    exact ⟨[], none, rfl, rfl, by simp [hasBad_nil, countValid_nil]⟩
  · obtain ⟨out, k, err, ho, hl, he⟩ := decodeLoop_total text.length text
      (List.replicate (tokenEncoding.DecodedLen text.length) 0) 0 0 (le_refl _) (by simp)
    refine ⟨out, err, ?_, by simpa using hl, he⟩
    simp [h, ho]

theorem unmarshalText_hasBad (t : Token) (text : List Byte) (h : hasBad text) :
    ∃ tok e, UnmarshalText t text = some (tok, some e) := by
  obtain ⟨tok, err, h1, _, h3⟩ := unmarshalText_total t text
  cases err with
  | none => exact absurd rfl (h3.mpr (Or.inl h))
  | some e => exact ⟨tok, e, h1⟩

/-- C7: for every text that contains at least one of the bytes `+` (43),
`/` (47) or `=` (61), UnmarshalText returns an error. -/
theorem unmarshalText_rejects_std_chars (t : Token) (text : List Byte)
    (h : (43 : Byte) ∈ text ∨ (47 : Byte) ∈ text ∨ (61 : Byte) ∈ text) :
    ∃ tok e, UnmarshalText t text = some (tok, some e) := by
  apply unmarshalText_hasBad
  rcases h with h | h | h
  · exact ⟨43, h, by decide, by decide, by decide⟩
  · exact ⟨47, h, by decide, by decide, by decide⟩
  · exact ⟨61, h, by decide, by decide, by decide⟩

theorem unmarshalText_rejects_std_chars_witness :
    ∃ tok e, UnmarshalText [7] [65, 65, 43, 65] = some (tok, some e) :=
  unmarshalText_rejects_std_chars [7] [65, 65, 43, 65] (by decide)

/-- C8, as stated, fails: the text `--8\n` contains the byte `\n` (10), which
is outside the alphabet, and UnmarshalText returns no error (the decoder skips
line breaks). -/
theorem unmarshalText_accepts_newline :
    (10 : Byte) ∈ ([45, 45, 56, 10] : List Byte) ∧ ¬ urlSafe 10 ∧
      UnmarshalText [] [45, 45, 56, 10] = some ([0xFB, 0xEF, 0], none) := by
  decide

/-- C8, amended: for every text that contains at least one byte that is
outside the URL-safe base64 alphabet and is not a line break (`\n`, `\r`),
UnmarshalText returns an error. -/
theorem unmarshalText_rejects_foreign (t : Token) (text : List Byte)
    (h : ∃ c ∈ text, ¬ urlSafe c ∧ c ≠ 10 ∧ c ≠ 13) :
    ∃ tok e, UnmarshalText t text = some (tok, some e) :=
  unmarshalText_hasBad t text h

theorem unmarshalText_rejects_foreign_witness :
    ∃ tok e, UnmarshalText [7] [65, 32, 66, 67] = some (tok, some e) :=
  unmarshalText_rejects_foreign [7] [65, 32, 66, 67] ⟨32, by decide, by decide, by decide, by decide⟩

theorem countValid_of_all (text : List Byte) (h : ∀ c ∈ text, urlSafe c) :
    countValid text = text.length := by
  unfold countValid
  rw [List.countP_eq_length]
  intro c hc
  exact decide_eq_true (h c hc)

/-- C9: for every text made only of URL-safe base64 alphabet characters whose
length is congruent to 1 modulo 4, UnmarshalText returns an error. -/
theorem unmarshalText_rejects_length (t : Token) (text : List Byte)
    (h1 : ∀ c ∈ text, urlSafe c) (h2 : text.length % 4 = 1) :
    ∃ tok e, UnmarshalText t text = some (tok, some e) := by
  obtain ⟨tok, err, h3, _, h5⟩ := unmarshalText_total t text
  cases err with
  | none =>
      refine absurd rfl (h5.mpr (Or.inr ?_))
      rw [countValid_of_all text h1]
      exact h2
  | some e => exact ⟨tok, e, h3⟩

set_option maxRecDepth 4000 in
theorem unmarshalText_rejects_length_witness :
    ∃ tok e, UnmarshalText [7] [65, 66, 67, 68, 69] = some (tok, some e) :=
  unmarshalText_rejects_length [7] [65, 66, 67, 68, 69] (by decide) (by decide)

/-! ## The remaining contracts of the binary and scalar methods -/

/-- C11: UnmarshalBinary is total.  For every byte sequence data (the empty
one included) and every prior token value, UnmarshalBinary returns no error
and the token afterwards is equal to data, with length exactly len(data). -/
theorem unmarshalBinary_total (t : Token) (data : List Byte) :
    (UnmarshalBinary t data).2 = none ∧ (UnmarshalBinary t data).1 = data ∧
      (UnmarshalBinary t data).1.length = data.length := by
  rw [unmarshalBinary_eq]
  exact ⟨rfl, rfl, rfl⟩

/-- C13: atomicity of scalar decode.  For every prior token value T and every
scalar value that is not a byte sequence, Scan returns its error and the token
afterwards is equal to T. -/
theorem scan_keeps_token (T : Token) (v : Value) (h : ∀ b, v ≠ Value.bytes b) :
    (Scan T v).2 = some Error.errInvalidTokenData ∧ (Scan T v).1 = T := by
  cases v with
  | bytes b => exact absurd rfl (h b)
  | _ => exact ⟨rfl, rfl⟩

theorem scan_keeps_token_witness :
    (Scan [1, 2, 3] (Value.text [65])).2 = some Error.errInvalidTokenData ∧
      (Scan [1, 2, 3] (Value.text [65])).1 = [1, 2, 3] :=
  scan_keeps_token [1, 2, 3] (Value.text [65]) (fun b h => by cases h)

/-- C14, the code at a failing input: for the token `{1, 2, 3}` MarshalBinary
returns the header of the receiver, so the store `b[0] = 9` through the
returned slice changes the token to `{9, 2, 3}`; the copy it made is a separate
array that is not returned. -/
theorem marshalBinary_aliases :
    (MarshalBinaryOnHeap [[1, 2, 3]] ⟨0, 0, 3⟩).2.1 = ⟨0, 0, 3⟩ ∧
      (MarshalBinaryOnHeap [[1, 2, 3]] ⟨0, 0, 3⟩).1 = [[1, 2, 3], [1, 2, 3]] ∧
      (Heap.storeAt (MarshalBinaryOnHeap [[1, 2, 3]] ⟨0, 0, 3⟩).1
          (MarshalBinaryOnHeap [[1, 2, 3]] ⟨0, 0, 3⟩).2.1 0 9).map
        (fun h => Heap.load h ⟨0, 0, 3⟩) = some [9, 2, 3] := by
  decide

theorem marshalBinaryOnHeap_slice (h : Heap) (t : Slice) :
    (MarshalBinaryOnHeap h t).2.1 = t := rfl

theorem marshalBinaryOnHeap_load (h : Heap) (t : Slice) (ht : t.arr < h.length) :
    Heap.load (MarshalBinaryOnHeap h t).1 (MarshalBinaryOnHeap h t).2.1 =
        (MarshalBinary (Heap.load h t)).1 ∧
      (MarshalBinaryOnHeap h t).2.2 = (MarshalBinary (Heap.load h t)).2 := by
  refine ⟨?_, rfl⟩
  have hne : h.length ≠ t.arr := by omega
  simp only [MarshalBinaryOnHeap, Heap.make, Heap.copy, Heap.load, MarshalBinary]
  rw [List.getD_eq_getElem?_getD, List.getD_eq_getElem?_getD, List.getElem?_set_ne hne,
    List.getElem?_append_left ht]
  rw [List.getD_eq_getElem?_getD]

/-! ## The remaining contracts of the text methods -/

/-- C16: the two-byte token `[0xFB, 0xEF]` encodes to exactly the three
characters `--8` (45, 45, 56), by MarshalText and by String. -/
theorem marshalText_example :
    MarshalText [0xFB, 0xEF] = some ([45, 45, 56], none) ∧
      String [0xFB, 0xEF] = some [45, 45, 56] := by
  decide

theorem string_eq (T : Token) : String T = some (encodeChars T) := by
  have h := marshalText_eq T
  unfold MarshalText at h
  dsimp only at h
  unfold String Encoding.EncodeToString
  cases he : tokenEncoding.Encode (List.replicate (tokenEncoding.EncodedLen T.length) 0) T with
  | none =>
      rw [he] at h
      cases h
  | some d =>
      rw [he] at h
      simp only [Option.bind_eq_bind, Option.some_bind, Option.some.injEq, Prod.mk.injEq,
        and_true] at h
      rw [h]

/-- C19: for every token T, String returns the same character sequence as the
bytes MarshalText returns. -/
theorem string_marshalText (T : Token) :
    ∃ text, MarshalText T = some (text, none) ∧ String T = some text :=
  ⟨encodeChars T, marshalText_eq T, string_eq T⟩

theorem encodedLen_eq (n : Nat) : tokenEncoding.EncodedLen n = (8 * n + 5) / 6 := by
  simp only [Encoding.EncodedLen, tokenEncoding_padChar, if_true]
  omega

/-- C20: for every token T of n bytes, MarshalText returns no error and exactly
(8n + 5) div 6 characters, which is the ceiling of 4n/3 (0, 2, 3, 4 for
n = 0, 1, 2, 3); DecodedLen of that length is n, and so is
(((8n + 5) div 6) * 6) div 8. -/
theorem marshalText_length (T : Token) :
    ∃ text, MarshalText T = some (text, none) ∧
      text.length = (8 * T.length + 5) / 6 ∧
      (8 * T.length + 5) / 6 = (4 * T.length + 2) / 3 ∧
      tokenEncoding.DecodedLen text.length = T.length ∧
      ((8 * T.length + 5) / 6 * 6) / 8 = T.length ∧
      tokenEncoding.EncodedLen 0 = 0 ∧ tokenEncoding.EncodedLen 1 = 2 ∧
      tokenEncoding.EncodedLen 2 = 3 ∧ tokenEncoding.EncodedLen 3 = 4 := by
  refine ⟨encodeChars T, marshalText_eq T, ?_, by omega, ?_, by omega, ?_, ?_, ?_, ?_⟩
  · rw [length_encodeChars, encodedLen_eq]
  · rw [length_encodeChars, decodedLen_encodedLen]
  all_goals simp [Encoding.EncodedLen, tokenEncoding_padChar]

/-- C15, as stated, fails: the token of 128 zero bytes has 128 bytes and its
MarshalText has 171 characters, not 172. -/
theorem marshalText_zeros_length :
    (List.replicate 128 (0 : Byte)).length = 128 ∧
      (MarshalText (List.replicate 128 0)).map (fun r => r.1.length) = some 171 := by
  refine ⟨List.length_replicate 128 0, ?_⟩
  rw [marshalText_eq]
  simp only [Option.map_some', length_encodeChars, List.length_replicate, Option.some.injEq]
  simp [Encoding.EncodedLen, tokenEncoding_padChar]

/-- C15, amended: for every token T of exactly 128 bytes, MarshalText returns
171 characters, none of which is `=` (61). -/
theorem marshalText_128 (T : Token) (h : T.length = 128) :
    ∃ text, MarshalText T = some (text, none) ∧ text.length = 171 ∧ ∀ c ∈ text, c ≠ 61 := by
  refine ⟨encodeChars T, marshalText_eq T, ?_, fun c hc => ?_⟩
  · rw [length_encodeChars, h]
    simp [Encoding.EncodedLen, tokenEncoding_padChar]
  · have hs := urlSafe_encodeChars T c hc
    rintro rfl
    revert hs
    decide

theorem marshalText_128_witness :
    ∃ text, MarshalText (List.replicate 128 7) = some (text, none) ∧ text.length = 171 ∧
      ∀ c ∈ text, c ≠ 61 :=
  marshalText_128 (List.replicate 128 7) (List.length_replicate 128 7)

/-- C12, as stated, fails: with the prior token `{1}` the text `AAAAA` is
rejected (CorruptInputError at offset 4) and the token afterwards is the
three-byte buffer `{0, 0, 0}`, not `{1}`. -/
theorem unmarshalText_error_changes_token :
    UnmarshalText [1] [65, 65, 65, 65, 65] = some ([0, 0, 0], some (Error.corruptInput 4)) ∧
      ([0, 0, 0] : Token) ≠ [1] := by
  decide

/-- C12, amended: for every prior token value T and every text, if
UnmarshalText returns an error then the token afterwards is the buffer
allocated for the decoding: it has exactly DecodedLen(len(text)) bytes and is
the same whatever T was. -/
theorem unmarshalText_error_state (T : Token) (text : List Byte) (tok : Token) (e : Error)
    (h : UnmarshalText T text = some (tok, some e)) :
    tok.length = tokenEncoding.DecodedLen text.length ∧
      ∀ T2 : Token, UnmarshalText T2 text = some (tok, some e) := by
  obtain ⟨tok2, err, h1, h2, _⟩ := unmarshalText_total T text
  rw [h1] at h
  simp only [Option.some.injEq, Prod.mk.injEq] at h
  obtain ⟨rfl, rfl⟩ := h
  exact ⟨h2, fun T2 => h1⟩

theorem unmarshalText_error_state_witness :
    ([0, 0, 0] : Token).length = tokenEncoding.DecodedLen ([65, 65, 65, 65, 65] : List Byte).length ∧
      ∀ T2 : Token, UnmarshalText T2 [65, 65, 65, 65, 65] =
        some ([0, 0, 0], some (Error.corruptInput 4)) :=
  unmarshalText_error_state [1] [65, 65, 65, 65, 65] [0, 0, 0] (Error.corruptInput 4) (by decide)

/-- C17, the code at a failing input: for the accepted text `--8\n` Decode
reports 2 bytes written into the 3-byte buffer, and UnmarshalText leaves the
token with all 3 bytes, the last one a filler zero. -/
theorem unmarshalText_keeps_filler :
    tokenEncoding.Decode (List.replicate (tokenEncoding.DecodedLen 4) 0) [45, 45, 56, 10] =
        some ([0xFB, 0xEF, 0], 2, none) ∧
      UnmarshalText [] [45, 45, 56, 10] = some ([0xFB, 0xEF, 0], none) ∧
      ([0xFB, 0xEF, 0] : Token).length ≠ 2 := by
  decide

/-! ## Re-encoding what Decode produced -/

set_option maxRecDepth 100000 in
theorem enc_dec : ∀ c : Byte, urlSafe c → tokenEncoding.enc (tokenEncoding.dec c).val = c := by
  decide

set_option maxRecDepth 100000 in
theorem dec_lt_64 : ∀ c : Byte, urlSafe c → (tokenEncoding.dec c).val < 64 := by
  decide

theorem list_induction4 {α : Type} {P : List α → Prop} (h0 : P []) (h1 : ∀ a, P [a])
    (h2 : ∀ a b, P [a, b]) (h3 : ∀ a b c, P [a, b, c])
    (h4 : ∀ a b c d l, P l → P (a :: b :: c :: d :: l)) : ∀ l, P l
  | [] => h0
  | [a] => h1 a
  | [a, b] => h2 a b
  | [a, b, c] => h3 a b c
  | a :: b :: c :: d :: l => h4 a b c d l (list_induction4 h0 h1 h2 h3 h4 l)

theorem toByte_val_mod (x : Nat) : (toByte x).val = x % 256 := rfl

theorem unpack4 (s0 s1 s2 s3 : Nat) (h0 : s0 < 64) (h1 : s1 < 64) (h2 : s2 < 64)
    (h3 : s3 < 64) (S v : Nat) (hS : S = s0 <<< 18 ||| s1 <<< 12 ||| s2 <<< 6 ||| s3)
    (hv : v = (toByte (S >>> 16)).val <<< 16 ||| (toByte (S >>> 8)).val <<< 8 |||
      (toByte (S >>> 0)).val) :
    v >>> 18 &&& 0x3F = s0 ∧ v >>> 12 &&& 0x3F = s1 ∧ v >>> 6 &&& 0x3F = s2 ∧
      v &&& 0x3F = s3 := by
  rw [pack4 _ _ _ _ h1 h2 h3] at hS
  rw [pack3 _ _ _ (by rw [toByte_val_mod]; omega) (by rw [toByte_val_mod]; omega)] at hv
  simp only [toByte_val_mod, Nat.shiftRight_eq_div_pow] at hv
  norm_num at hv
  simp only [and_63, Nat.shiftRight_eq_div_pow]
  norm_num
  omega

theorem unpack3 (s0 s1 s2 : Nat) (h0 : s0 < 64) (h1 : s1 < 64) (h2 : s2 < 64)
    (hz : s2 % 4 = 0) (S v : Nat) (hS : S = s0 <<< 18 ||| s1 <<< 12 ||| s2 <<< 6)
    (hv : v = (toByte (S >>> 16)).val <<< 16 ||| (toByte (S >>> 8)).val <<< 8) :
    v >>> 18 &&& 0x3F = s0 ∧ v >>> 12 &&& 0x3F = s1 ∧ v >>> 6 &&& 0x3F = s2 := by
  have hp := pack4 s0 s1 s2 0 h1 h2 (by omega)
  rw [Nat.or_zero] at hp
  rw [hp] at hS
  have hq := pack3 (toByte (S >>> 16)).val (toByte (S >>> 8)).val 0
    (by rw [toByte_val_mod]; omega) (by omega)
  rw [Nat.or_zero] at hq
  rw [hq] at hv
  simp only [toByte_val_mod, Nat.shiftRight_eq_div_pow] at hv
  norm_num at hv
  simp only [and_63, Nat.shiftRight_eq_div_pow]
  norm_num
  omega

theorem unpack2 (s0 s1 : Nat) (h0 : s0 < 64) (h1 : s1 < 64)
    (hz : s1 % 16 = 0) (S v : Nat) (hS : S = s0 <<< 18 ||| s1 <<< 12)
    (hv : v = (toByte (S >>> 16)).val <<< 16) :
    v >>> 18 &&& 0x3F = s0 ∧ v >>> 12 &&& 0x3F = s1 := by
  have hp := pack4 s0 s1 0 0 h1 (by omega) (by omega)
  rw [Nat.zero_shiftLeft, Nat.or_zero, Nat.or_zero] at hp
  rw [hp] at hS
  simp only [toByte_val_mod, Nat.shiftRight_eq_div_pow, Nat.shiftLeft_eq] at hv
  norm_num at hv
  simp only [and_63, Nat.shiftRight_eq_div_pow]
  norm_num
  omega

theorem encodeChars_decodeChars (text : List Byte) :
    (∀ c ∈ text, urlSafe c) → text.length % 4 ≠ 1 → trailingBitsZero text = true →
      encodeChars (decodeChars text) = text := by
  induction text using list_induction4 with
  | h0 => intro _ _ _; rfl
  | h1 a => intro _ h _; simp at h
  | h2 a b =>
      intro hs _ hz
      have ha := hs a (by simp)
      have hb := hs b (by simp)
      simp only [trailingBitsZero, decide_eq_true_eq] at hz
      obtain ⟨e0, e1⟩ := unpack2 _ _ (dec_lt_64 a ha) (dec_lt_64 b hb) hz _ _ rfl rfl
      simp only [decodeChars, encodeChars, e0, e1, enc_dec a ha, enc_dec b hb]
  | h3 a b c =>
      intro hs _ hz
      have ha := hs a (by simp)
      have hb := hs b (by simp)
      have hc := hs c (by simp)
      simp only [trailingBitsZero, decide_eq_true_eq] at hz
      obtain ⟨e0, e1, e2⟩ :=
        unpack3 _ _ _ (dec_lt_64 a ha) (dec_lt_64 b hb) (dec_lt_64 c hc) hz _ _ rfl rfl
      simp only [decodeChars, encodeChars, e0, e1, e2, enc_dec a ha, enc_dec b hb, enc_dec c hc]
  | h4 a b c d l ih =>
      intro hs hl hz
      have ha := hs a (by simp)
      have hb := hs b (by simp)
      have hc := hs c (by simp)
      have hd := hs d (by simp)
      have hl2 : l.length % 4 ≠ 1 := by
        simp only [List.length_cons] at hl
        omega
      have hz2 : trailingBitsZero l = true := by
        simpa [trailingBitsZero] using hz
      have ih2 := ih (fun x hx => hs x (by simp [hx])) hl2 hz2
      obtain ⟨e0, e1, e2, e3⟩ :=
        unpack4 _ _ _ _ (dec_lt_64 a ha) (dec_lt_64 b hb) (dec_lt_64 c hc) (dec_lt_64 d hd)
          _ _ rfl rfl
      simp only [decodeChars, encodeChars, e0, e1, e2, e3, enc_dec a ha, enc_dec b hb,
        enc_dec c hc, enc_dec d hd, ih2]

/-! ## Decoding a text of alphabet characters -/

theorem scan_safe4 (c0 c1 c2 c3 : Byte) (h0 : urlSafe c0) (h1 : urlSafe c1) (h2 : urlSafe c2)
    (h3 : urlSafe c3) (rest : List Byte) (si : Nat) :
    tokenEncoding.scanQuantum (c0 :: c1 :: c2 :: c3 :: rest) si 0 [0, 0, 0, 0] =
      .brk 4 [tokenEncoding.dec c0, tokenEncoding.dec c1, tokenEncoding.dec c2,
        tokenEncoding.dec c3] rest (si + 4) none := by
  rw [scan_cons_safe _ _ _ _ _ (by omega) h0, scan_cons_safe _ _ _ _ _ (by omega) h1,
    scan_cons_safe _ _ _ _ _ (by omega) h2, scan_cons_safe _ _ _ _ _ (by omega) h3,
    scan_full _ _ _ _ (by omega)]
  rfl

theorem scan_safe3 (c0 c1 c2 : Byte) (h0 : urlSafe c0) (h1 : urlSafe c1) (h2 : urlSafe c2)
    (si : Nat) :
    tokenEncoding.scanQuantum [c0, c1, c2] si 0 [0, 0, 0, 0] =
      .brk 3 [tokenEncoding.dec c0, tokenEncoding.dec c1, tokenEncoding.dec c2, 0] []
        (si + 3) none := by
  rw [scan_cons_safe _ _ _ _ _ (by omega) h0, scan_cons_safe _ _ _ _ _ (by omega) h1,
    scan_cons_safe _ _ _ _ _ (by omega) h2]
  rfl

theorem scan_safe2 (c0 c1 : Byte) (h0 : urlSafe c0) (h1 : urlSafe c1) (si : Nat) :
    tokenEncoding.scanQuantum [c0, c1] si 0 [0, 0, 0, 0] =
      .brk 2 [tokenEncoding.dec c0, tokenEncoding.dec c1, 0, 0] [] (si + 2) none := by
  rw [scan_cons_safe _ _ _ _ _ (by omega) h0, scan_cons_safe _ _ _ _ _ (by omega) h1]
  rfl

theorem decodeQuantum_safe4 (c0 c1 c2 c3 : Byte) (h0 : urlSafe c0) (h1 : urlSafe c1)
    (h2 : urlSafe c2) (h3 : urlSafe c3) (pre post rest : List Byte) (x0 x1 x2 : Byte)
    (si : Nat) :
    tokenEncoding.decodeQuantum (pre ++ x0 :: x1 :: x2 :: post) pre.length
        (c0 :: c1 :: c2 :: c3 :: rest) si =
      some ⟨pre ++ (decodeChars [c0, c1, c2, c3] ++ post), rest, si + 4, 3, none⟩ := by
  have hn : ¬ (pre ++ x0 :: x1 :: x2 :: post).length < pre.length := by
    simp
  unfold Encoding.decodeQuantum
  rw [if_neg hn, scan_safe4 _ _ _ _ h0 h1 h2 h3]
  simp only [List.getD_cons_zero, List.getD_cons_succ, if_true]
  rw [quantumCase4_eq _ _ _ _ _ _ _ _ _ (by simp)]
  simp [List.set_append_right, decodeChars]

theorem decodeQuantum_safe3 (c0 c1 c2 : Byte) (h0 : urlSafe c0) (h1 : urlSafe c1)
    (h2 : urlSafe c2) (pre post : List Byte) (x0 x1 : Byte) (si : Nat) :
    tokenEncoding.decodeQuantum (pre ++ x0 :: x1 :: post) pre.length [c0, c1, c2] si =
      some ⟨pre ++ (decodeChars [c0, c1, c2] ++ post), [], si + 3, 2, none⟩ := by
  have hn : ¬ (pre ++ x0 :: x1 :: post).length < pre.length := by
    simp
  unfold Encoding.decodeQuantum
  rw [if_neg hn, scan_safe3 _ _ _ h0 h1 h2]
  simp only [List.getD_cons_zero, List.getD_cons_succ, Fin.val_zero, Nat.or_zero, if_true,
    if_false]
  rw [quantumCase3_eq _ _ _ _ _ _ _ _ _ (by simp)]
  simp [List.set_append_right, decodeChars]

theorem decodeQuantum_safe2 (c0 c1 : Byte) (h0 : urlSafe c0) (h1 : urlSafe c1)
    (pre post : List Byte) (x0 : Byte) (si : Nat) :
    tokenEncoding.decodeQuantum (pre ++ x0 :: post) pre.length [c0, c1] si =
      some ⟨pre ++ (decodeChars [c0, c1] ++ post), [], si + 2, 1, none⟩ := by
  have hn : ¬ (pre ++ x0 :: post).length < pre.length := by
    simp
  unfold Encoding.decodeQuantum
  rw [if_neg hn, scan_safe2 _ _ h0 h1]
  simp only [List.getD_cons_zero, List.getD_cons_succ, Fin.val_zero, Nat.or_zero,
    Nat.zero_shiftLeft, if_true, if_false]
  rw [quantumCase2_eq _ _ _ _ _ _ _ _ _ (by simp)]
  simp [List.set_append_right, decodeChars]

theorem length_decodeChars (text : List Byte) :
    (decodeChars text).length = tokenEncoding.DecodedLen text.length := by
  induction text using list_induction4 with
  | h0 => simp [decodeChars, decodedLen_eq]
  | h1 a => simp [decodeChars, decodedLen_eq]
  | h2 a b => simp [decodeChars, decodedLen_eq]
  | h3 a b c => simp [decodeChars, decodedLen_eq]
  | h4 a b c d l ih =>
      simp only [decodeChars, List.length_cons, ih, decodedLen_eq]
      omega

theorem decodeLoop_decodeChars (text : List Byte) :
    (∀ c ∈ text, urlSafe c) → text.length % 4 ≠ 1 →
    ∀ (pre post : List Byte) (fuel si : Nat),
      (decodeChars text).length ≤ post.length → text.length ≤ fuel →
      tokenEncoding.decodeLoop fuel (pre ++ post) pre.length text si =
        some (pre ++ decodeChars text ++ post.drop (decodeChars text).length,
          pre.length + (decodeChars text).length, none) := by
  induction text using list_induction4 with
  | h0 =>
      intro _ _ pre post fuel si _ _
      simp [decodeChars, Encoding.decodeLoop]
  | h1 a =>
      intro _ h
      simp at h
  | h2 a b =>
      intro hs _ pre post fuel si hp hf
      have ha := hs a (by simp)
      have hb := hs b (by simp)
      rcases post with _ | ⟨x0, post⟩
      · simp [decodeChars] at hp
      · rcases fuel with _ | fuel
        · simp at hf
        · simp only [Encoding.decodeLoop, decodeQuantum_safe2 a b ha hb pre post x0 si]
          simp [decodeChars]
  | h3 a b c =>
      intro hs _ pre post fuel si hp hf
      have ha := hs a (by simp)
      have hb := hs b (by simp)
      have hc := hs c (by simp)
      rcases post with _ | ⟨x0, _ | ⟨x1, post⟩⟩
      · simp [decodeChars] at hp
      · simp [decodeChars] at hp
      · rcases fuel with _ | fuel
        · simp at hf
        · simp only [Encoding.decodeLoop, decodeQuantum_safe3 a b c ha hb hc pre post x0 x1 si]
          simp [decodeChars]
  | h4 a b c d l ih =>
      intro hs hl pre post fuel si hp hf
      have ha := hs a (by simp)
      have hb := hs b (by simp)
      have hc := hs c (by simp)
      have hd := hs d (by simp)
      have hl2 : l.length % 4 ≠ 1 := by
        simp only [List.length_cons] at hl
        omega
      rcases post with _ | ⟨x0, _ | ⟨x1, _ | ⟨x2, post⟩⟩⟩
      · simp [decodeChars] at hp
      · simp [decodeChars] at hp
      · simp [decodeChars] at hp
      · rcases fuel with _ | fuel
        · simp at hf
        · have hp2 : (decodeChars l).length ≤ post.length := by
            simpa [decodeChars] using hp
          have hf2 : l.length ≤ fuel := by
            simp only [List.length_cons] at hf
            omega
          have h := ih (fun x hx => hs x (by simp [hx])) hl2
            (pre ++ decodeChars [a, b, c, d]) post fuel (si + 4) hp2 hf2
          simp only [decodeChars, List.length_append, List.length_cons, List.length_nil,
            List.append_assoc, List.cons_append, List.nil_append] at h
          simp only [Encoding.decodeLoop, decodeQuantum_safe4 a b c d ha hb hc hd pre post _
            x0 x1 x2 si]
          simp only [Option.isSome_none, Bool.false_eq_true, if_false, decodeChars,
            List.cons_append, List.nil_append, h]
          simp
          omega

theorem unmarshalText_decodeChars (t : Token) (text : List Byte)
    (hs : ∀ c ∈ text, urlSafe c) (hl : text.length % 4 ≠ 1) :
    UnmarshalText t text = some (decodeChars text, none) := by
  unfold UnmarshalText Encoding.Decode
  by_cases h : text.length = 0
  · have : text = [] := List.length_eq_zero.mp h
    subst this
    rfl
  · have := decodeLoop_decodeChars text hs hl []
      (List.replicate (tokenEncoding.DecodedLen text.length) 0) text.length 0
      (by simp [length_decodeChars]) (le_refl _)
    simp only [List.nil_append, List.length_nil] at this
    simp [h, this, length_decodeChars]

/-- C18, as stated, fails: the texts `--9` and `--8` are distinct, both are
accepted and both decode to the token `{0xFB, 0xEF}`, whose MarshalText is
`--8`, not `--9`. -/
theorem unmarshalText_not_strict :
    UnmarshalText [] [45, 45, 57] = some ([0xFB, 0xEF], none) ∧
      MarshalText [0xFB, 0xEF] = some ([45, 45, 56], none) ∧
      UnmarshalText [] [45, 45, 56] = some ([0xFB, 0xEF], none) ∧
      ([45, 45, 57] : List Byte) ≠ [45, 45, 56] := by
  decide

/-- C18, amended: for every text on which UnmarshalText returns no error,
which has no line-break byte and whose last character carries no set unused
trailing bit, MarshalText of the resulting token is equal to that text. -/
theorem marshalText_unmarshalText (t : Token) (text : List Byte) (tok : Token)
    (hacc : UnmarshalText t text = some (tok, none))
    (hnl : ∀ c ∈ text, c ≠ 10 ∧ c ≠ 13)
    (hz : trailingBitsZero text = true) :
    MarshalText tok = some (text, none) := by
  obtain ⟨tok2, err, h1, _, h3⟩ := unmarshalText_total t text
  rw [h1] at hacc
  simp only [Option.some.injEq, Prod.mk.injEq] at hacc
  obtain ⟨rfl, rfl⟩ := hacc
  have hno : ¬ (hasBad text ∨ countValid text % 4 = 1) := fun h => h3.mpr h rfl
  have hs : ∀ c ∈ text, urlSafe c := by
    intro c hc
    by_contra hcs
    exact hno (Or.inl ⟨c, hc, hcs, (hnl c hc).1, (hnl c hc).2⟩)
  have hl : text.length % 4 ≠ 1 := by
    intro h
    apply hno
    right
    rw [countValid_of_all text hs]
    exact h
  rw [unmarshalText_decodeChars t text hs hl] at h1
  simp only [Option.some.injEq, Prod.mk.injEq, and_true] at h1
  rw [← h1, marshalText_eq, encodeChars_decodeChars text hs hl hz]

set_option maxRecDepth 4000 in
theorem marshalText_unmarshalText_witness :
    MarshalText [65, 66, 67, 68] = some ([81, 85, 74, 68, 82, 65], none) :=
  marshalText_unmarshalText [] [81, 85, 74, 68, 82, 65] [65, 66, 67, 68] (by decide) (by decide)
    (by decide)

end GoToken
